import Mathlib

/-!
Verification of the `constcat` compile-time concatenation library
(`src/lib.rs`).

The crate's core is the `_concat_slices!` macro (src/lib.rs:264-292).
For a nonempty list of constant slice segments `s1, ..., sn` of element
type `T` it expands to:

  const LEN: usize = s1.len() + ... + sn.len() + 0;
  const ARR: [T; LEN] = {
      let mut arr: [T; LEN] =
          unsafe { core::mem::MaybeUninit::zeroed().assume_init() };
      let mut base: usize = 0;
      // for each segment s:
      //   let mut i = 0;
      //   while i < s.len() { arr[base + i] = s[i]; i += 1; }
      //   base += s.len();
      if base != LEN { /* trap: invalid length */ }
      arr
  };
  &ARR

For the empty segment list it expands to `&[]`.  Note that the macro
binds an initializer expression `$init` but the expansion for one or
more segments never mentions it: the buffer is pre-filled by zeroing
raw memory (`MaybeUninit::zeroed`), not by evaluating `$init`.

We embed slices as Lean lists, the mutable fixed-size array as a list
of the same length updated with `List.set`, the compile-time trap
(`invalid length`) as `none`, and a successful constant as `some`.
Both the never-used `$init` value and the element value produced by
zeroing raw memory appear as explicit parameters (`init`, `zeroed`) so
that theorems can speak about their (non-)influence on the result.
-/

namespace Constcat

variable {α : Type*}

/-- LEN models `const LEN: usize = s1.len() + s2.len() + ... + 0;`
(src/lib.rs:275): the sum of the lengths of all segments. -/
def LEN (segs : List (List α)) : Nat :=
  (segs.map List.length).sum

/-- Inner copy loop of `_concat_slices!` (src/lib.rs:280-284):
`let mut i = 0; while i < s.len() { arr[base + i] = s[i]; i += 1; }`.
The loop walks the segment front to back, writing each element at the
next position; we fuse the loop counter `i` into the write position
`p = base + i` and recurse on the remaining elements of the segment. -/
def copyLoop : List α → List α → Nat → List α
  | [], arr, _ => arr
  | x :: xs, arr, p => copyLoop xs (arr.set p x) (p + 1)

/-- Outer repetition of `_concat_slices!` (src/lib.rs:279-286): one
copy block per segment, in input order, each advancing the running
offset `base` by the segment's length after copying it. -/
def copyAll : List (List α) → List α × Nat → List α × Nat
  | [], st => st
  | s :: rest, (arr, base) => copyAll rest (copyLoop s arr base, base + s.length)

/-- Model of `_concat_slices!` (src/lib.rs:264-292).  `init` is the
macro's `$init` argument, which the nonempty expansion never uses;
`zeroed` is the element value produced by
`MaybeUninit::zeroed().assume_init()`, used to pre-fill the buffer.
`none` models the compile-time trap on the final length check
(src/lib.rs:287); `some` models the produced constant `&ARR`. -/
def _concat_slices (init zeroed : α) : List (List α) → Option (List α)
  | [] => some []
  | s :: rest =>
    let segs := s :: rest
    let len := LEN segs
    let st := copyAll segs (List.replicate len zeroed, 0)
    if st.2 = len then some st.1 else none

/-- Model of the public `concat_slices!` arm with an explicit
initializer (src/lib.rs:253-255): it forwards to `_concat_slices!`
unchanged. -/
def concat_slices_with_init (init zeroed : α) (segs : List (List α)) : Option (List α) :=
  _concat_slices init zeroed segs

/-- Model of the public `concat_slices!` arm without an initializer
(src/lib.rs:257-259): it forwards with `0 as $T` as the initializer;
`zero` stands for the value of `0 as $T`. -/
def concat_slices_no_init (zero zeroed : α) (segs : List (List α)) : Option (List α) :=
  concat_slices_with_init zero zeroed segs

/-- Sum of the lengths of the segments strictly before index `i`: the
global position at which segment `i` starts in the output. -/
def offsetBefore (segs : List (List α)) (i : Nat) : Nat :=
  ((segs.take i).map List.length).sum

/-- UTF-8 encoding of one Unicode scalar value, as byte values: the
per-character content of `$s.as_bytes()` for a Rust `&str`
(src/lib.rs:124). -/
def utf8EncodeChar (c : Char) : List Nat :=
  let n := c.toNat
  if n < 128 then [n]
  else if n < 2048 then [192 + n / 64, 128 + n % 64]
  else if n < 65536 then [224 + n / 4096, 128 + n / 64 % 64, 128 + n % 64]
  else [240 + n / 262144, 128 + n / 4096 % 64, 128 + n / 64 % 64, 128 + n % 64]

/-- Byte content of a string constant (`$s.as_bytes()`,
src/lib.rs:124): the concatenated UTF-8 encodings of its characters. -/
def strToBytes (s : List Char) : List Nat :=
  (s.map utf8EncodeChar).flatten

/-- ValidUTF8 bs states that the byte list is the UTF-8 encoding of
some character sequence, which is exactly the precondition under which
`core::str::from_utf8_unchecked` (src/lib.rs:127) is sound. -/
def ValidUTF8 (bs : List Nat) : Prop :=
  ∃ cs : List Char, bs = strToBytes cs

/-- Model of `_concat!` (src/lib.rs:113-129): the empty invocation
yields `""`; otherwise every argument is required to be a `&str`
constant (the `const _: &str = $s;` assertions, modelled by the
`List Char` input type), each is turned into its byte slice, and the
byte slices are concatenated with `concat_slices!([u8]: ...)`, for
which both the `0 as u8` initializer and the zeroed byte are `0`. -/
def _concat (strs : List (List Char)) : Option (List Nat) :=
  match strs with
  | [] => some []
  | _ :: _ => _concat_slices 0 0 (strs.map strToBytes)

/-- Model of `_concat_bytes!` (src/lib.rs:184-194): the empty
invocation yields `b""`; otherwise the byte-slice arguments are
concatenated with `concat_slices!([u8]: ...)`. -/
def _concat_bytes (segs : List (List Nat)) : Option (List Nat) :=
  match segs with
  | [] => some []
  | _ :: _ => _concat_slices 0 0 segs

/-- Argument shapes accepted by `concat!` (src/lib.rs:105-109): a
literal (string, integer, character or boolean) or a non-literal
constant expression already of type `&str`. -/
inductive Arg where
  | strLit : List Char → Arg
  | intLit : Int → Arg
  | charLit : Char → Arg
  | boolLit : Bool → Arg
  | expr : List Char → Arg

/-- Modelled from the spec: `_maybe_std_concat!` (src/lib.rs:133-140)
forwards a literal argument to `core::concat!`, and the stringification
that `core::concat!` applies to integer, character and boolean
literals (the host language's standard rules, spec §4.1) is host
behaviour, not code of this repository; non-literal expressions pass
through unchanged (src/lib.rs:137-139). -/
def _maybe_std_concat : Arg → List Char
  | .strLit s => s
  | .intLit n => (toString n).toList
  | .charLit c => [c]
  | .boolLit b => (toString b).toList
  | .expr s => s

/-- Model of the public `concat!` macro (src/lib.rs:105-129): each
argument goes through `_maybe_std_concat!`, then the resulting string
constants are concatenated by `_concat!`. -/
def concatMacro (args : List Arg) : Option (List Nat) :=
  _concat (args.map _maybe_std_concat)

theorem copyLoop_length (xs : List α) (arr : List α) (p : Nat) :
    (copyLoop xs arr p).length = arr.length := by
  induction xs generalizing arr p with
  | nil => rfl
  | cons x xs ih => simp [copyLoop, ih]

/-- Writing a segment at offset `p` into a buffer large enough to hold
it replaces exactly the slots `p .. p + xs.length` with the segment. -/
theorem copyLoop_spec (xs : List α) (arr : List α) (p : Nat)
    (h : p + xs.length ≤ arr.length) :
    copyLoop xs arr p = arr.take p ++ xs ++ arr.drop (p + xs.length) := by
  induction xs generalizing arr p with
  | nil => simp [copyLoop]
  | cons x xs ih =>
    have hp : p < arr.length := by simp at h; omega
    rw [copyLoop, ih (arr.set p x) (p + 1) (by simp; simp at h; omega)]
    rw [List.set_eq_take_append_cons_drop, if_pos hp]
    have htake : (arr.take p ++ x :: arr.drop (p + 1)).take (p + 1)
        = arr.take p ++ [x] := by
      rw [List.take_append_eq_append_take]
      have : (arr.take p).length = p := List.length_take_of_le (le_of_lt hp)
      simp [this]
    have hdrop : (arr.take p ++ x :: arr.drop (p + 1)).drop (p + 1 + xs.length)
        = arr.drop (p + (x :: xs).length) := by
      have hlen : (arr.take p).length = p := List.length_take_of_le (le_of_lt hp)
      have hnil : (arr.take p).drop (p + 1 + xs.length) = [] :=
        List.drop_eq_nil_of_le (by rw [hlen]; omega)
      have h1 : p + 1 + xs.length - p = xs.length + 1 := by omega
      rw [List.drop_append_eq_append_drop, hnil, hlen, h1]
      simp only [List.nil_append, List.drop_succ_cons, List.drop_drop, List.length_cons]
      congr 1
      omega
    rw [htake, hdrop]
    simp

/-- Invariant of the outer loop: starting from offset `base` in a
buffer with room for all segments, the copy blocks overwrite the slots
`base .. base + LEN segs` with the segments in order, and the final
offset is `base + LEN segs`. -/
theorem copyAll_spec (segs : List (List α)) (arr : List α) (base : Nat)
    (h : base + LEN segs ≤ arr.length) :
    copyAll segs (arr, base)
      = (arr.take base ++ segs.flatten ++ arr.drop (base + LEN segs),
          base + LEN segs) := by
  induction segs generalizing arr base with
  | nil => simp [copyAll, LEN]
  | cons s rest ih =>
    have hLEN : LEN (s :: rest) = s.length + LEN rest := by simp [LEN]
    rw [copyAll]
    rw [copyLoop_spec s arr base (by omega)]
    set arr' := arr.take base ++ s ++ arr.drop (base + s.length) with harr'
    have hbase : base ≤ arr.length := by omega
    have hlt : base + s.length ≤ arr.length := by omega
    have harrlen : arr'.length = arr.length := by
      simp [harr', List.length_take_of_le hbase]
      omega
    rw [ih arr' (base + s.length) (by omega)]
    have htk : (arr.take base).length = base := List.length_take_of_le hbase
    have htake : arr'.take (base + s.length) = arr.take base ++ s := by
      rw [harr', List.append_assoc, List.take_append_eq_append_take]
      simp [htk, List.take_append_eq_append_take]
    have hdrop : arr'.drop (base + s.length + LEN rest)
        = arr.drop (base + (LEN (s :: rest))) := by
      have hnil1 : (arr.take base).drop (base + s.length + LEN rest) = [] :=
        List.drop_eq_nil_of_le (by rw [htk]; omega)
      have hnil2 : s.drop (base + s.length + LEN rest - (arr.take base).length) = [] :=
        List.drop_eq_nil_of_le (by rw [htk]; omega)
      rw [harr', List.append_assoc, List.drop_append_eq_append_drop, hnil1,
        List.drop_append_eq_append_drop, hnil2]
      simp only [htk, List.nil_append, List.drop_drop]
      congr 1
      simp [hLEN]
      omega
    rw [htake, hdrop, hLEN]
    rw [Prod.mk.injEq]
    refine ⟨by simp [List.append_assoc], by omega⟩

/-- Master correctness theorem for the embedding: `_concat_slices!`
always succeeds (the invalid-length trap is not hit) and produces
exactly the left-to-right concatenation of the segments, independently
of both the `$init` argument and the zeroed pre-fill value. -/
theorem _concat_slices_eq (init zeroed : α) (segs : List (List α)) :
    _concat_slices init zeroed segs = some segs.flatten := by
  cases segs with
  | nil => rfl
  | cons s rest =>
    rw [_concat_slices]
    have hrep : (List.replicate (LEN (s :: rest)) zeroed).length = LEN (s :: rest) := by
      simp
    rw [copyAll_spec (s :: rest) _ 0 (by simp)]
    have hflat : (s :: rest).flatten.length = LEN (s :: rest) := by
      simp [LEN, List.length_flatten]
    simp

/-- Element lookup in a flattened list: position `offsetBefore segs i + j`
holds element `j` of segment `i`. -/
theorem flatten_getElem_aux (segs : List (List α)) (i j : Nat)
    (hi : i < segs.length) (hj : j < (segs.get ⟨i, hi⟩).length) :
    segs.flatten[offsetBefore segs i + j]? = some ((segs.get ⟨i, hi⟩).get ⟨j, hj⟩) := by
  induction segs generalizing i with
  | nil => exact absurd hi (by simp)
  | cons s rest ih =>
    cases i with
    | zero =>
      simp only [offsetBefore, List.take_zero, List.map_nil, List.sum_nil, Nat.zero_add,
        List.flatten_cons, List.get_eq_getElem, List.getElem_cons_zero] at hj ⊢
      rw [List.getElem?_append, if_pos hj, List.getElem?_eq_getElem hj]
    | succ i =>
      have hi' : i < rest.length := by simpa using hi
      have hoff : offsetBefore (s :: rest) (i + 1) = s.length + offsetBefore rest i := by
        simp [offsetBefore]
      rw [hoff, List.flatten_cons,
        List.getElem?_append_right (by omega : s.length ≤ s.length + offsetBefore rest i + j)]
      have hidx : s.length + offsetBefore rest i + j - s.length = offsetBefore rest i + j := by
        omega
      rw [hidx]
      have hj' : j < (rest.get ⟨i, hi'⟩).length := by simpa using hj
      rw [ih i hi' hj']
      simp

/-- Distributing the byte encoding over concatenation of strings: the
bytes of a concatenated string are the concatenation of the bytes of
its parts. -/
theorem strToBytes_flatten (strs : List (List Char)) :
    strToBytes strs.flatten = (strs.map strToBytes).flatten := by
  induction strs with
  | nil => rfl
  | cons s rest ih => simp [strToBytes, List.map_append, List.flatten_append] at ih ⊢; simp [ih]

/-- C1: for every list of constant slice segments, the element of the
result at global position `offsetBefore segs i + j` (position `j`
inside the range covered by segment `i`) is exactly element `j` of
segment `i`: segments appear in input order and element values are
copied unchanged. -/
theorem concat_slices_order_preservation (init zeroed : α) (segs : List (List α))
    (r : List α) (hr : _concat_slices init zeroed segs = some r)
    (i j : Nat) (hi : i < segs.length) (hj : j < (segs.get ⟨i, hi⟩).length) :
    r[offsetBefore segs i + j]? = some ((segs.get ⟨i, hi⟩).get ⟨j, hj⟩) := by
  have h : r = segs.flatten :=
    Option.some.inj (hr.symm.trans (_concat_slices_eq init zeroed segs))
  subst h
  exact flatten_getElem_aux segs i j hi hj

/-- Witness for C1 at the concrete input `[[1, 2], [3]]`, segment 1,
local offset 0: the result `[1, 2, 3]` holds `3` at global position
`2`. -/
theorem concat_slices_order_preservation_witness :
    ([1, 2, 3] : List Nat)[offsetBefore [[1, 2], [3]] 1 + 0]? = some 3 :=
  concat_slices_order_preservation 0 0 [[1, 2], [3]] [1, 2, 3] (by decide) 1 0
    (by decide) (by decide)

/-- C2: for every list of constant slice segments the concatenation
succeeds and the length of the result equals the sum of the lengths of
the segments, the count `LEN` computed before the fixed-size buffer
`List.replicate (LEN segs) zeroed` is created. -/
theorem concat_slices_length_law (init zeroed : α) (segs : List (List α)) :
    ∃ r, _concat_slices init zeroed segs = some r
      ∧ r.length = (segs.map List.length).sum :=
  ⟨segs.flatten, _concat_slices_eq init zeroed segs, List.length_flatten segs⟩

/-- C3: for every list of string segments (each a `List Char`, hence
valid text by construction, matching the `const _: &str` assertions),
`_concat!` produces a byte buffer that is valid UTF-8, so applying
`from_utf8_unchecked` to it is sound. -/
theorem concat_utf8_valid (strs : List (List Char)) :
    ∃ bs, _concat strs = some bs ∧ ValidUTF8 bs := by
  cases strs with
  | nil => exact ⟨[], rfl, [], rfl⟩
  | cons s rest =>
    refine ⟨((s :: rest).map strToBytes).flatten, ?_, ⟨(s :: rest).flatten, ?_⟩⟩
    · show _concat_slices 0 0 ((s :: rest).map strToBytes) = _
      exact _concat_slices_eq 0 0 _
    · exact (strToBytes_flatten (s :: rest)).symm

/-- C4: for every input segment list the running offset after all
copies equals the precomputed total length, so the invalid-length trap
of `_concat_slices!` is unreachable and the expansion always yields a
constant. -/
theorem concat_slices_trap_unreachable (init zeroed : α) (segs : List (List α)) :
    (copyAll segs (List.replicate (LEN segs) zeroed, 0)).2 = LEN segs
      ∧ (_concat_slices init zeroed segs).isSome = true := by
  constructor
  · rw [copyAll_spec segs _ 0 (by simp)]
    simp
  · rw [_concat_slices_eq init zeroed segs]
    rfl

/-- C5: in typed-slice concatenation the caller-supplied initializer
(and likewise the zeroed pre-fill) is never observable in the final
result: the result is the same for any two initializer values, and
every element of the result is an element of one of the source
segments. -/
theorem concat_slices_init_unobservable (init₁ zeroed₁ init₂ zeroed₂ : α)
    (segs : List (List α)) (r : List α)
    (hr : _concat_slices init₁ zeroed₁ segs = some r) :
    _concat_slices init₂ zeroed₂ segs = some r ∧ ∀ x ∈ r, ∃ s ∈ segs, x ∈ s := by
  have h : r = segs.flatten :=
    Option.some.inj (hr.symm.trans (_concat_slices_eq init₁ zeroed₁ segs))
  subst h
  exact ⟨_concat_slices_eq init₂ zeroed₂ segs, fun x hx => List.mem_flatten.mp hx⟩

/-- Witness for C5 on a 3+3 element concatenation: with two different
initializer/pre-fill pairs (7,8) and (5,6) the result is the same
`[1, 2, 3, 4, 5, 6]`, and each of its elements is a source element. -/
theorem concat_slices_init_unobservable_witness :
    _concat_slices 5 6 [[1, 2, 3], [4, 5, 6]] = some [1, 2, 3, 4, 5, 6]
      ∧ ∀ x ∈ ([1, 2, 3, 4, 5, 6] : List Nat), ∃ s ∈ [[1, 2, 3], [4, 5, 6]], x ∈ s :=
  concat_slices_init_unobservable 7 8 5 6 [[1, 2, 3], [4, 5, 6]] [1, 2, 3, 4, 5, 6]
    (by decide)

/-- C6: concatenating zero segments yields the empty result of length
0 (empty string for `_concat!`, empty byte sequence for
`_concat_bytes!`, empty slice for `_concat_slices!`), not an error. -/
theorem concat_empty_segments :
    (∀ (α : Type) (init zeroed : α), _concat_slices init zeroed [] = some [])
      ∧ _concat [] = some [] ∧ _concat_bytes [] = some [] :=
  ⟨fun _ _ _ => rfl, rfl, rfl⟩

/-- C7: concatenating a single segment yields that segment unchanged. -/
theorem concat_slices_identity (init zeroed : α) (s : List α) :
    _concat_slices init zeroed [s] = some s := by
  rw [_concat_slices_eq]
  simp

/-- C8: associativity of composition: concatenating `[a, b]` and then
the result with `c` equals concatenating `a` with the concatenation of
`[b, c]`, and both equal the single three-segment concatenation. -/
theorem concat_slices_assoc (init zeroed : α) (a b c : List α) :
    ∃ ab bc abc,
      _concat_slices init zeroed [a, b] = some ab
        ∧ _concat_slices init zeroed [b, c] = some bc
        ∧ _concat_slices init zeroed [a, b, c] = some abc
        ∧ _concat_slices init zeroed [ab, c] = some abc
        ∧ _concat_slices init zeroed [a, bc] = some abc := by
  refine ⟨a ++ b, b ++ c, a ++ b ++ c, ?_, ?_, ?_, ?_, ?_⟩ <;>
    simp [_concat_slices_eq, List.append_assoc]

/-- C9: `concat!` stringifies non-string literals with the host
language's rules before joining: `concat!("test", 10, 'b', true)`
yields `"test10btrue"`, and `concat!("before ", TEST5, " after")` with
the constant `TEST5 = "one2"` yields `"before one2 after"`. -/
theorem concat_literal_stringification :
    concatMacro [.strLit "test".toList, .intLit 10, .charLit 'b', .boolLit true]
        = some (strToBytes "test10btrue".toList)
      ∧ concatMacro [.strLit "before ".toList, .expr "one2".toList,
          .strLit " after".toList]
        = some (strToBytes "before one2 after".toList) :=
  ⟨by decide, by decide⟩

/-- C10: the result of `concat_slices!` is independent of the
initializer: any two initializer values, and the form without an
initializer (which passes `0 as $T`), produce equal results, because
the expansion never uses the `$init` argument and pre-fills the buffer
with the zeroed value instead. -/
theorem concat_slices_init_independent (init₁ init₂ zero zeroed : α)
    (segs : List (List α)) :
    concat_slices_with_init init₁ zeroed segs = concat_slices_with_init init₂ zeroed segs
      ∧ concat_slices_with_init init₁ zeroed segs
        = concat_slices_no_init zero zeroed segs :=
  ⟨rfl, rfl⟩

end Constcat
